import Mathlib

/-!
# Verification of the response-caching layer (`src/caching.py`)

Shallow embedding of the caching engine of the predictive-propositions
service: `CacheConfig`, `CacheManager` (`_generate_key`, `get`, `set`,
`delete`, `clear`) and the `cached` decorator's synchronous wrapper.

Modelling conventions:
* Python values stored in / passed through the cache are modelled by `PyVal`
  (JSON scalars plus an opaque non-JSON-serializable object, rendered by its
  `str()` form, which is what `json.dumps(..., default=str)` falls back to).
* Python dicts are association lists in insertion order: assignment
  overwrites in place or appends at the end, `del` removes the key (raising
  `KeyError` when absent), iteration follows list order — exactly CPython's
  documented dict semantics.
* `datetime.utcnow()` is modelled by an explicit integer `now` argument
  (seconds); `(now - timestamp).total_seconds() < ttl_seconds` becomes the
  integer comparison `now - ts < ttl_seconds`.
* A Python call that can raise is embedded as `Except PyErr`; exceptions that
  the source catches and logs (the Redis `try/except` blocks) are swallowed
  in the model exactly where the source swallows them.
* `hashlib.md5(s.encode()).hexdigest()` is an arbitrary deterministic
  function of the string; every definition and theorem is parametrised by
  `md5hex : String → String`.
* The Redis client is modelled at adapter level by a record of per-operation
  outcomes (`RemoteClient`); the JSON wire encoding of remote values is
  inlined (no theorem below exercises a healthy remote hit).
-/

/-- A raised Python exception, identified by its rendering. -/
structure PyErr where
  msg : String
deriving DecidableEq

/-- The value domain: JSON scalars plus `obj s`, an arbitrary non-JSON
object whose `str()` rendering is `s` (the `default=str` fallback target). -/
inductive PyVal where
  | str (s : String)
  | int (n : Int)
  | bool (b : Bool)
  | none
  | obj (s : String)
deriving DecidableEq

/-- Python truthiness on the value domain. -/
def pyTruthy : PyVal → Bool
  | PyVal.str s => s ≠ ""
  | PyVal.int n => n ≠ 0
  | PyVal.bool b => b
  | PyVal.none => false
  | PyVal.obj _ => true

/-- Lower-case hex digit. -/
def hexDigit (n : Nat) : Char :=
  if n < 10 then Char.ofNat (48 + n) else Char.ofNat (87 + n)

/-- Four-digit hex rendering used by JSON `\uXXXX` escapes. -/
def hex4 (n : Nat) : String :=
  String.mk [hexDigit (n / 4096 % 16), hexDigit (n / 256 % 16),
             hexDigit (n / 16 % 16), hexDigit (n % 16)]

/-- Escape of one character inside a JSON string literal, following
`json.dumps` with its default `ensure_ascii=True`. -/
def jsonEscape (c : Char) : String :=
  if c = '"' then "\\\""
  else if c = '\\' then "\\\\"
  else if c = '\n' then "\\n"
  else if c = '\t' then "\\t"
  else if c = '\r' then "\\r"
  else if c.toNat = 8 then "\\b"
  else if c.toNat = 12 then "\\f"
  else if c.toNat < 32 ∨ c.toNat > 126 then
    if c.toNat ≥ 65536 then
      "\\u" ++ hex4 (55296 + (c.toNat - 65536) / 1024) ++
      "\\u" ++ hex4 (56320 + (c.toNat - 65536) % 1024)
    else "\\u" ++ hex4 c.toNat
  else String.singleton c

/-- JSON string literal for `s`, as produced by `json.dumps`. -/
def jsonString (s : String) : String :=
  "\"" ++ String.join (s.data.map jsonEscape) ++ "\""

/-- Serialization of one value, as `json.dumps(v, default=str)` renders it:
JSON scalars natively, any other object through its `str()` form (so the
serialization is total — nothing in this domain makes `dumps` raise). -/
def json_dumps_val : PyVal → String
  | PyVal.str s => jsonString s
  | PyVal.int n => toString n
  | PyVal.bool b => if b then "true" else "false"
  | PyVal.none => "null"
  | PyVal.obj s => jsonString s

/-- Python string comparison (code-point lexicographic `<=`), computed on
the character lists. -/
def pyListLe : List Char → List Char → Bool
  | [], _ => true
  | _ :: _, [] => false
  | c :: cs, d :: ds =>
    if c.toNat < d.toNat then true
    else if d.toNat < c.toNat then false
    else pyListLe cs ds

theorem pyListLe_total : ∀ a b : List Char,
    pyListLe a b = true ∨ pyListLe b a = true := by
  intro a
  induction a with
  | nil => intro b; exact Or.inl rfl
  | cons c cs ih =>
    intro b
    cases b with
    | nil => exact Or.inr rfl
    | cons d ds =>
      rcases Nat.lt_trichotomy c.toNat d.toNat with hlt | heq | hgt
      · exact Or.inl (by simp [pyListLe, hlt])
      · rcases ih ds with h | h
        · exact Or.inl (by simp [pyListLe, heq, lt_irrefl, h])
        · exact Or.inr (by simp [pyListLe, heq, lt_irrefl, h])
      · exact Or.inr (by simp [pyListLe, hgt])

theorem pyListLe_trans : ∀ a b c : List Char, pyListLe a b = true →
    pyListLe b c = true → pyListLe a c = true := by
  intro a
  induction a with
  | nil => intro b c _ _; rfl
  | cons x as ih =>
    intro b c h1 h2
    cases b with
    | nil => exact absurd h1 (by simp [pyListLe])
    | cons y bs =>
      cases c with
      | nil => exact absurd h2 (by simp [pyListLe])
      | cons z cs =>
        rcases Nat.lt_trichotomy x.toNat y.toNat with hxy | hxy | hxy
        · rcases Nat.lt_trichotomy y.toNat z.toNat with hyz | hyz | hyz
          · simp [pyListLe, lt_trans hxy hyz]
          · simp [pyListLe, hyz ▸ hxy]
          · exact absurd h2 (by simp [pyListLe, hyz, asymm hyz])
        · rcases Nat.lt_trichotomy y.toNat z.toNat with hyz | hyz | hyz
          · simp [pyListLe, hxy ▸ hyz]
          · have hxz : x.toNat = z.toNat := hxy.trans hyz
            have h1' : pyListLe as bs = true := by
              simpa [pyListLe, hxy, lt_irrefl] using h1
            have h2' : pyListLe bs cs = true := by
              simpa [pyListLe, hyz, lt_irrefl] using h2
            simp [pyListLe, hxz, lt_irrefl, ih bs cs h1' h2']
          · exact absurd h2 (by simp [pyListLe, hyz, asymm hyz])
        · exact absurd h1 (by simp [pyListLe, hxy, asymm hxy])

theorem pyListLe_antisymm : ∀ a b : List Char, pyListLe a b = true →
    pyListLe b a = true → a = b := by
  intro a
  induction a with
  | nil =>
    intro b _ h2
    cases b with
    | nil => rfl
    | cons d ds => exact absurd h2 (by simp [pyListLe])
  | cons c cs ih =>
    intro b h1 h2
    cases b with
    | nil => exact absurd h1 (by simp [pyListLe])
    | cons d ds =>
      rcases Nat.lt_trichotomy c.toNat d.toNat with hlt | heq | hgt
      · exact absurd h2 (by simp [pyListLe, hlt, asymm hlt])
      · have hcd : c = d := Char.ext (UInt32.ext heq)
        have h1' : pyListLe cs ds = true := by
          simpa [pyListLe, heq, lt_irrefl] using h1
        have h2' : pyListLe ds cs = true := by
          simpa [pyListLe, heq, lt_irrefl] using h2
        rw [hcd, ih ds h1' h2']
      · exact absurd h1 (by simp [pyListLe, hgt, asymm hgt])

/-- Key order used by `sort_keys=True`: compare items by their key string,
in Python's code-point order.  (Keys of a Python dict are unique, so
`sorted(d.items())` never reaches the value component of the tuples.) -/
def keyLE (p q : String × PyVal) : Prop := pyListLe p.1.data q.1.data = true

instance : DecidableRel keyLE :=
  fun p q => inferInstanceAs (Decidable (_ = true))

instance : IsTotal (String × PyVal) keyLE :=
  ⟨fun a b => pyListLe_total a.1.data b.1.data⟩

instance : IsTrans (String × PyVal) keyLE :=
  ⟨fun a b c h h' => pyListLe_trans a.1.data b.1.data c.1.data h h'⟩

/-- `json.dumps(kwargs, sort_keys=True, default=str)`: items sorted by key
with a stable sort (CPython's `sorted`), rendered with the default
`", "` / `": "` separators. -/
def json_dumps_sorted (kwargs : List (String × PyVal)) : String :=
  "\x7b" ++
    String.intercalate ", "
      ((List.insertionSort keyLE kwargs).map
        (fun p => jsonString p.1 ++ ": " ++ json_dumps_val p.2)) ++
  "\x7d"

/-- The string value of `CacheManager._generate_key`:
`key_str = f"{namespace}:{json.dumps(kwargs, sort_keys=True, default=str)}"`,
then `f"cache:{namespace}:{md5(key_str).hexdigest()}"`. -/
def generate_key_str (md5hex : String → String) (ns : String)
    (kwargs : List (String × PyVal)) : String :=
  "cache:" ++ ns ++ ":" ++
    md5hex (ns ++ ":" ++ json_dumps_sorted kwargs)

/-- `CacheManager._generate_key` with Python call semantics.  With
`default=str` every value of the domain serializes (see `json_dumps_val`),
so the call always succeeds: no code path in the source raises. -/
def generate_key (md5hex : String → String) (ns : String)
    (kwargs : List (String × PyVal)) : Except PyErr String :=
  Except.ok (generate_key_str md5hex ns kwargs)

/-- Python dict lookup `d.get(k)` / `d[k]`-presence: first (unique) match. -/
def dictGet {α : Type} : List (String × α) → String → Option α
  | [], _ => Option.none
  | (k', v) :: r, k => if k' = k then Option.some v else dictGet r k

/-- Python `k in d`. -/
def dictContains {α : Type} (l : List (String × α)) (k : String) : Bool :=
  (dictGet l k).isSome

/-- Python dict assignment `d[k] = v`: overwrite in place when the key is
present, append at the end otherwise (insertion-ordered dict). -/
def dictSet {α : Type} (l : List (String × α)) (k : String) (v : α) :
    List (String × α) :=
  if dictContains l k then
    l.map (fun p => if p.1 = k then (k, v) else p)
  else
    l ++ [(k, v)]

/-- Python `del d[k]`: removes the key, raising `KeyError` when absent. -/
def pyDel {α : Type} (l : List (String × α)) (k : String) :
    Except PyErr (List (String × α)) :=
  if dictContains l k then
    Except.ok (l.filter (fun p => p.1 != k))
  else
    Except.error ⟨"KeyError"⟩

/-- The fold underlying `min(d, key=d.get)`: keeps the first element whose
associated value is minimal (Python `min` keeps the earliest minimum). -/
def minEntry (p : String × Int) (r : List (String × Int)) : String × Int :=
  r.foldl (fun best q => if q.2 < best.2 then q else best) p

/-- `min(self.cache_timestamps, key=self.cache_timestamps.get)` with Python
semantics: `ValueError` on an empty dict is represented by `none`. -/
def dictMin (l : List (String × Int)) : Option String :=
  match l with
  | [] => Option.none
  | p :: r => Option.some (minEntry p r).1

/-- `CacheConfig`: the constructor stores the four fields unchanged — the
source performs no validation whatsoever. -/
structure CacheConfig where
  ttl_seconds : Int
  max_size : Int
  use_redis : Bool
  redis_url : String
deriving DecidableEq

/-- Default `CacheConfig()` argument values. -/
def defaultConfig : CacheConfig :=
  ⟨300, 10000, true, "redis://localhost:6379/0"⟩

/-- `CacheConfig.__init__` with Python call semantics: it only assigns
attributes and can never raise. -/
def CacheConfig.init (ttl_seconds max_size : Int) (use_redis : Bool)
    (redis_url : String) : Except PyErr CacheConfig :=
  Except.ok ⟨ttl_seconds, max_size, use_redis, redis_url⟩

/-- Adapter-level model of a Redis client: each operation either returns or
raises.  The remote store's own state is behind these functions. -/
structure RemoteClient where
  rget : String → Except PyErr (Option PyVal)
  rsetex : String → Int → PyVal → Except PyErr Unit
  rdel : String → Except PyErr Unit

/-- A Redis client in a failing state: every operation raises. -/
def failingRemote : RemoteClient :=
  ⟨fun _ => Except.error ⟨"ConnectionError"⟩,
   fun _ _ _ => Except.error ⟨"ConnectionError"⟩,
   fun _ => Except.error ⟨"ConnectionError"⟩⟩

/-- `CacheManager` state: configuration, the two insertion-ordered dicts
`in_memory_cache` and `cache_timestamps`, and the optional Redis client. -/
structure CacheManager where
  config : CacheConfig
  in_memory_cache : List (String × PyVal)
  cache_timestamps : List (String × Int)
  redis_client : Option RemoteClient

/-- `CacheManager.__init__` with Python call semantics: takes the optional
config (`config or CacheConfig()`), whether the `redis` import succeeded,
and the outcome of `redis.from_url(...).ping()` (`none` models the caught
connection exception).  The body validates nothing and never raises. -/
def CacheManager.init (config : Option CacheConfig) (hasRedis : Bool)
    (fromUrlPing : String → Option RemoteClient) :
    Except PyErr CacheManager :=
  let cfg := match config with
    | Option.some c => c
    | Option.none => defaultConfig
  let client :=
    if cfg.use_redis && hasRedis then fromUrlPing cfg.redis_url
    else Option.none
  Except.ok ⟨cfg, [], [], client⟩

/-- Lines 138–147 of `CacheManager.set`: the unconditional in-memory write
with capacity-triggered eviction (`len >= max_size` → delete the key with
the minimal timestamp, then insert). -/
def localPut (m : CacheManager) (key : String) (value : PyVal) (now : Int) :
    Except PyErr CacheManager :=
  if (m.in_memory_cache.length : Int) ≥ m.config.max_size then
    match dictMin m.cache_timestamps with
    | Option.none => Except.error ⟨"ValueError"⟩
    | Option.some oldest_key =>
      match pyDel m.in_memory_cache oldest_key with
      | Except.error e => Except.error e
      | Except.ok c =>
        match pyDel m.cache_timestamps oldest_key with
        | Except.error e => Except.error e
        | Except.ok t =>
          Except.ok { m with in_memory_cache := dictSet c key value,
                             cache_timestamps := dictSet t key now }
  else
    Except.ok { m with
      in_memory_cache := dictSet m.in_memory_cache key value,
      cache_timestamps := dictSet m.cache_timestamps key now }

/-- Lines 92–100 of `CacheManager.get`: the remote branch.  `some v` means
the branch executed `return json.loads(value)` (a hit); `none` means it
fell through to the in-memory tier — because there is no client, the value
was absent or falsy (`if value:`), or the call raised and the exception was
caught and logged. -/
def remoteGet (m : CacheManager) (key : String) : Option PyVal :=
  match m.redis_client with
  | Option.some rc =>
    match rc.rget key with
    | Except.ok (Option.some v) =>
      if pyTruthy v then Option.some v else Option.none
    | Except.ok Option.none => Option.none
    | Except.error _ => Option.none
  | Option.none => Option.none

/-- Lines 108–111 + 114 of `CacheManager.get`: the expiry branch — delete
the entry from both dicts (the `del` on `cache_timestamps` raises
`KeyError` when the timestamp is missing) and report a miss. -/
def expireEntry (m : CacheManager) (key : String) :
    Except PyErr (PyVal × CacheManager) :=
  match pyDel m.in_memory_cache key with
  | Except.error e => Except.error e
  | Except.ok c =>
    match pyDel m.cache_timestamps key with
    | Except.error e => Except.error e
    | Except.ok t =>
      Except.ok (PyVal.none,
        { m with in_memory_cache := c, cache_timestamps := t })

/-- Lines 102–114 of `CacheManager.get`: the in-memory tier.  A present key
with a timestamp strictly younger than `ttl_seconds` is a hit; a present
key with a stale or missing timestamp (`if timestamp and ...`) is lazily
expired; an absent key is a miss (`return None`). -/
def localGet (m : CacheManager) (now : Int) (key : String) :
    Except PyErr (PyVal × CacheManager) :=
  match dictGet m.in_memory_cache key with
  | Option.some v =>
    match dictGet m.cache_timestamps key with
    | Option.some ts =>
      if now - ts < m.config.ttl_seconds then
        Except.ok (v, m)
      else
        expireEntry m key
    | Option.none => expireEntry m key
  | Option.none => Except.ok (PyVal.none, m)

/-- `CacheManager.get`: Redis first (`remoteGet`), then the in-memory tier
(`localGet`). -/
def CacheManager.get (md5hex : String → String) (m : CacheManager)
    (now : Int) (ns : String) (kwargs : List (String × PyVal)) :
    Except PyErr (PyVal × CacheManager) :=
  match generate_key md5hex ns kwargs with
  | Except.error e => Except.error e
  | Except.ok key =>
    match remoteGet m key with
    | Option.some v => Except.ok (v, m)
    | Option.none => localGet m now key

/-- `CacheManager.set`: the Redis `setex` (serialization inlined) whose
exceptions are caught and logged, followed by the unconditional in-memory
write of `localPut`. -/
def CacheManager.set (md5hex : String → String) (m : CacheManager)
    (now : Int) (ns : String) (value : PyVal)
    (kwargs : List (String × PyVal)) : Except PyErr CacheManager :=
  match generate_key md5hex ns kwargs with
  | Except.error e => Except.error e
  | Except.ok key =>
    let _remoteWrite : Unit :=
      match m.redis_client with
      | Option.some rc =>
        match rc.rsetex key m.config.ttl_seconds value with
        | Except.ok _ => ()
        | Except.error _ => ()
      | Option.none => ()
    localPut m key value now

/-- Lines 164–166 of `CacheManager.delete`: the guarded in-memory deletion
(`if key in self.in_memory_cache`; the second `del`, on `cache_timestamps`,
is unguarded in the source and raises `KeyError` when absent there). -/
def localDelete (m : CacheManager) (key : String) :
    Except PyErr CacheManager :=
  if dictContains m.in_memory_cache key then
    match pyDel m.in_memory_cache key with
    | Except.error e => Except.error e
    | Except.ok c =>
      match pyDel m.cache_timestamps key with
      | Except.error e => Except.error e
      | Except.ok t =>
        Except.ok { m with in_memory_cache := c, cache_timestamps := t }
  else
    Except.ok m

/-- `CacheManager.delete`: Redis delete with swallowed exceptions, then the
guarded in-memory deletion. -/
def CacheManager.delete (md5hex : String → String) (m : CacheManager)
    (ns : String) (kwargs : List (String × PyVal)) :
    Except PyErr CacheManager :=
  match generate_key md5hex ns kwargs with
  | Except.error e => Except.error e
  | Except.ok key =>
    let _remoteDelete : Unit :=
      match m.redis_client with
      | Option.some rc =>
        match rc.rdel key with
        | Except.ok _ => ()
        | Except.error _ => ()
      | Option.none => ()
    localDelete m key

/-- `CacheManager.clear`: drops both in-memory dicts. -/
def CacheManager.clear (m : CacheManager) : CacheManager :=
  { m with in_memory_cache := [], cache_timestamps := [] }

/-- Sequential in-memory insertion of a list of `(key, value, time)`
triples, one `localPut` per element (used to state the capacity-eviction
scenario of the spec). -/
def putList (m : CacheManager) : List (String × PyVal × Int) →
    Except PyErr CacheManager
  | [] => Except.ok m
  | x :: r =>
    match localPut m x.1 x.2.1 x.2.2 with
    | Except.ok m' => putList m' r
    | Except.error e => Except.error e

/-- A freshly constructed manager over `cfg` with no Redis client. -/
def mkManager (cfg : CacheConfig) : CacheManager :=
  ⟨cfg, [], [], Option.none⟩

/-- The synchronous branch of the `cached` decorator, `sync_wrapper`.  The
wrapped computation is `func : σ → PyVal × σ` over an explicit side-effect
state `σ` (the call's fixed arguments are baked into `func`; `str(args)` and
`str(kwargs)` are the two strings of the cache-key dict).  Returns the
Python return value together with the manager state and effect state. -/
def sync_wrapper {σ : Type} (md5hex : String → String) (cm : CacheManager)
    (ns : String) (func : σ → PyVal × σ)
    (argsStr kwargsStr : String) (now : Int) (s : σ) :
    Except PyErr (PyVal × CacheManager × σ) :=
  let cache_key : List (String × PyVal) :=
    [("args", PyVal.str argsStr), ("kwargs", PyVal.str kwargsStr)]
  match CacheManager.get md5hex cm now ns cache_key with
  | Except.error e => Except.error e
  | Except.ok (cached_value, cm₁) =>
    if cached_value ≠ PyVal.none then
      Except.ok (cached_value, cm₁, s)
    else
      let rs := func s
      match CacheManager.set md5hex cm₁ now ns rs.1 cache_key with
      | Except.error e => Except.error e
      | Except.ok cm₂ => Except.ok (rs.1, cm₂, rs.2)

/-- Key list of an association-list dict. -/
def keysOf {α : Type} (l : List (String × α)) : List String :=
  l.map Prod.fst

/-- The structural invariant every reachable manager satisfies: the value
dict and the timestamp dict hold exactly the same keys, in the same
insertion order, with no duplicates. -/
def Wf (m : CacheManager) : Prop :=
  keysOf m.in_memory_cache = keysOf m.cache_timestamps ∧
    (keysOf m.in_memory_cache).Nodup

instance (m : CacheManager) : Decidable (Wf m) :=
  inferInstanceAs (Decidable (_ ∧ _))

/-- Value dict holding the entries of a `(key, value, time)` list. -/
def entriesV (L : List (String × PyVal × Int)) : List (String × PyVal) :=
  L.map (fun x => (x.1, x.2.1))

/-- Timestamp dict holding the entries of a `(key, value, time)` list. -/
def entriesT (L : List (String × PyVal × Int)) : List (String × Int) :=
  L.map (fun x => (x.1, x.2.2))

/-- `keyLE` together with key distinctness, used to show sorted item lists
with distinct keys are unique. -/
def keyLT (p q : String × PyVal) : Prop := keyLE p q ∧ p.1 ≠ q.1

instance : IsAntisymm (String × PyVal) keyLT :=
  ⟨fun a b h h' =>
    absurd (congrArg String.mk (pyListLe_antisymm _ _ h.1 h'.1)) h.2⟩

/-! ## Association-list dictionary lemmas -/

theorem keysOf_cons {α : Type} (p : String × α) (r : List (String × α)) :
    keysOf (p :: r) = p.1 :: keysOf r := rfl

theorem keysOf_append {α : Type} (l₁ l₂ : List (String × α)) :
    keysOf (l₁ ++ l₂) = keysOf l₁ ++ keysOf l₂ := by
  simp [keysOf]

theorem dictContains_iff {α : Type} (l : List (String × α)) (k : String) :
    dictContains l k = true ↔ k ∈ keysOf l := by
  induction l with
  | nil => simp [dictContains, dictGet, keysOf]
  | cons p r ih =>
    obtain ⟨k', v⟩ := p
    by_cases h : k' = k
    · subst h
      simp [dictContains, dictGet, keysOf]
    · simp only [dictContains, dictGet, if_neg h, keysOf_cons]
      rw [List.mem_cons]
      constructor
      · intro hc
        exact Or.inr (ih.mp hc)
      · intro hc
        rcases hc with hc | hc
        · exact absurd hc.symm h
        · exact ih.mpr hc

theorem dictContains_congr {α β : Type} {l₁ : List (String × α)}
    {l₂ : List (String × β)} (h : keysOf l₁ = keysOf l₂) (k : String) :
    dictContains l₁ k = dictContains l₂ k := by
  by_cases hm : k ∈ keysOf l₁
  · rw [(dictContains_iff l₁ k).mpr hm, ((dictContains_iff l₂ k).mpr (h ▸ hm)).symm]
  · have h₂ : ¬ k ∈ keysOf l₂ := h ▸ hm
    rw [Bool.eq_iff_iff]
    constructor
    · intro hc
      exact absurd ((dictContains_iff l₁ k).mp hc) hm
    · intro hc
      exact absurd ((dictContains_iff l₂ k).mp hc) h₂

theorem keysOf_def {α : Type} (l : List (String × α)) :
    keysOf l = l.map Prod.fst := rfl

theorem dictGet_overwrite_of_contains {α : Type} {l : List (String × α)}
    {k : String} (v : α) (h : dictContains l k = true) :
    dictGet (l.map (fun p => if p.1 = k then (k, v) else p)) k =
      Option.some v := by
  induction l with
  | nil => simp [dictContains, dictGet] at h
  | cons p r ih =>
    obtain ⟨k', w⟩ := p
    simp only [List.map_cons]
    by_cases hk : k' = k
    · subst hk
      rw [show (if ((k', w) : String × α).1 = k' then (k', v) else (k', w)) =
            (k', v) from if_pos rfl]
      simp [dictGet]
    · rw [show (if ((k', w) : String × α).1 = k then (k, v) else (k', w)) =
            (k', w) from if_neg hk]
      have h' : dictContains r k = true := by
        simpa [dictContains, dictGet, hk] using h
      simp only [dictGet, if_neg hk]
      exact ih h'

theorem dictGet_append_right {α : Type} {l₁ : List (String × α)}
    (l₂ : List (String × α)) {k : String}
    (h : dictGet l₁ k = Option.none) :
    dictGet (l₁ ++ l₂) k = dictGet l₂ k := by
  induction l₁ with
  | nil => rfl
  | cons p r ih =>
    obtain ⟨k', w⟩ := p
    by_cases hk : k' = k
    · simp [dictGet, hk] at h
    · simp only [dictGet, if_neg hk] at h
      simpa [dictGet, hk] using ih h

theorem dictGet_dictSet_self {α : Type} (l : List (String × α)) (k : String)
    (v : α) : dictGet (dictSet l k v) k = Option.some v := by
  unfold dictSet
  by_cases h : dictContains l k
  · rw [if_pos h]
    exact dictGet_overwrite_of_contains v h
  · rw [if_neg h]
    have hn : dictGet l k = Option.none := by
      cases hg : dictGet l k with
      | none => rfl
      | some w => exact absurd (by simp [dictContains, hg]) h
    rw [dictGet_append_right _ hn]
    simp [dictGet]

theorem keysOf_dictSet {α : Type} (l : List (String × α)) (k : String)
    (v : α) :
    keysOf (dictSet l k v) =
      if dictContains l k then keysOf l else keysOf l ++ [k] := by
  unfold dictSet
  by_cases h : dictContains l k
  · rw [if_pos h, if_pos h]
    simp only [keysOf, List.map_map]
    apply List.map_congr_left
    intro p _
    by_cases hk : p.1 = k
    · simp [Function.comp, hk]
    · simp [Function.comp, hk]
  · rw [if_neg h, if_neg h, keysOf_append]
    rfl

theorem nodup_keysOf_dictSet {α : Type} {l : List (String × α)} {k : String}
    (v : α) (h : (keysOf l).Nodup) : (keysOf (dictSet l k v)).Nodup := by
  rw [keysOf_dictSet]
  by_cases hc : dictContains l k
  · rwa [if_pos hc]
  · rw [if_neg hc]
    have hk : k ∉ keysOf l := fun hm => hc ((dictContains_iff l k).mpr hm)
    simp [List.nodup_append, h, hk]

theorem pyDel_eq_ok {α : Type} {l : List (String × α)} {k : String}
    (h : dictContains l k = true) :
    pyDel l k = Except.ok (l.filter (fun p => p.1 != k)) := by
  simp [pyDel, h]

theorem pyDel_ok_inv {α : Type} {l c : List (String × α)} {k : String}
    (h : pyDel l k = Except.ok c) :
    c = l.filter (fun p => p.1 != k) := by
  unfold pyDel at h
  by_cases hc : dictContains l k
  · rw [if_pos hc] at h
    exact (Except.ok.injEq _ _ ▸ h).symm
  · rw [if_neg hc] at h
    exact absurd h (by simp)

theorem keysOf_filter_ne {α : Type} (l : List (String × α)) (k : String) :
    keysOf (l.filter (fun p => p.1 != k)) =
      (keysOf l).filter (fun s => s != k) := by
  induction l with
  | nil => rfl
  | cons p r ih =>
    obtain ⟨k', w⟩ := p
    simp only [List.filter_cons, keysOf_cons]
    by_cases hk : k' = k
    · subst hk
      rw [show (((k', w) : String × α).1 != k') = false by simp]
      simpa using ih
    · rw [show (((k', w) : String × α).1 != k) = true by simpa using hk]
      simpa [keysOf_cons] using ih

theorem dictGet_filter_self {α : Type} (l : List (String × α)) (k : String) :
    dictGet (l.filter (fun p => p.1 != k)) k = Option.none := by
  induction l with
  | nil => rfl
  | cons p r ih =>
    obtain ⟨k', w⟩ := p
    by_cases hk : k' = k
    · subst hk
      simpa [List.filter] using ih
    · simp only [List.filter]
      rw [show (k' != k) = true by simpa using hk]
      simpa [dictGet, hk] using ih

theorem dictGet_eq_some_of_mem {α : Type} {l : List (String × α)}
    {k : String} {v : α} (hm : (k, v) ∈ l) (hnd : (keysOf l).Nodup) :
    dictGet l k = Option.some v := by
  induction l with
  | nil => cases hm
  | cons p r ih =>
    obtain ⟨k', w⟩ := p
    rcases List.mem_cons.mp hm with he | hr
    · rw [Prod.mk.injEq] at he
      simp [dictGet, he.1.symm, he.2.symm]
    · have hk : k' ≠ k := by
        intro he
        subst he
        exact (List.nodup_cons.mp hnd).1
          (by simpa [keysOf_def] using List.mem_map_of_mem Prod.fst hr)
      simp only [dictGet, if_neg hk]
      exact ih hr (List.nodup_cons.mp hnd).2

theorem mem_of_dictGet {α : Type} {l : List (String × α)} {k : String}
    {v : α} (h : dictGet l k = Option.some v) : (k, v) ∈ l := by
  induction l with
  | nil => cases h
  | cons p r ih =>
    obtain ⟨k', w⟩ := p
    by_cases hk : k' = k
    · subst hk
      have hu : dictGet ((k', w) :: r) k' = Option.some w := by
        simp [dictGet]
      rw [hu] at h
      rw [← Option.some.inj h]
      exact List.mem_cons_self _ _
    · simp only [dictGet, if_neg hk] at h
      exact List.mem_cons_of_mem _ (ih h)

/-! ## `min(d, key=d.get)` lemmas -/

theorem minEntry_mem (r : List (String × Int)) (p : String × Int) :
    minEntry p r ∈ p :: r := by
  induction r generalizing p with
  | nil => exact List.mem_singleton.mpr rfl
  | cons q r ih =>
    have hstep : minEntry p (q :: r) =
        minEntry (if q.2 < p.2 then q else p) r := rfl
    rw [hstep]
    have hm := ih (if q.2 < p.2 then q else p)
    by_cases hlt : q.2 < p.2
    · rw [if_pos hlt] at hm
      rw [if_pos hlt]
      rcases List.mem_cons.mp hm with he | hr
      · rw [he]
        exact List.mem_cons_of_mem _ (List.mem_cons_self _ _)
      · exact List.mem_cons_of_mem _ (List.mem_cons_of_mem _ hr)
    · rw [if_neg hlt] at hm
      rw [if_neg hlt]
      rcases List.mem_cons.mp hm with he | hr
      · rw [he]
        exact List.mem_cons_self _ _
      · exact List.mem_cons_of_mem _ (List.mem_cons_of_mem _ hr)

theorem minEntry_le (r : List (String × Int)) (p : String × Int) :
    ∀ q ∈ p :: r, (minEntry p r).2 ≤ q.2 := by
  induction r generalizing p with
  | nil =>
    intro q hq
    rw [List.mem_singleton.mp hq]
    exact le_refl _
  | cons q' r ih =>
    intro q hq
    have hstep : minEntry p (q' :: r) =
        minEntry (if q'.2 < p.2 then q' else p) r := rfl
    rw [hstep]
    have hble : (if q'.2 < p.2 then q' else p).2 ≤ p.2 ∧
        (if q'.2 < p.2 then q' else p).2 ≤ q'.2 := by
      by_cases hlt : q'.2 < p.2
      · rw [if_pos hlt]
        exact ⟨le_of_lt hlt, le_refl _⟩
      · rw [if_neg hlt]
        exact ⟨le_refl _, le_of_not_lt hlt⟩
    have hmin_b : (minEntry (if q'.2 < p.2 then q' else p) r).2 ≤
        (if q'.2 < p.2 then q' else p).2 :=
      ih (if q'.2 < p.2 then q' else p) _ (List.mem_cons_self _ _)
    rcases List.mem_cons.mp hq with he | hq2
    · rw [he]
      exact le_trans hmin_b hble.1
    · rcases List.mem_cons.mp hq2 with he' | hr
      · rw [he']
        exact le_trans hmin_b hble.2
      · exact ih _ q (List.mem_cons_of_mem _ hr)

theorem minEntry_eq_head (p : String × Int) (r : List (String × Int))
    (h : ∀ q ∈ r, ¬ q.2 < p.2) : minEntry p r = p := by
  induction r generalizing p with
  | nil => rfl
  | cons q r ih =>
    have step : minEntry p (q :: r) = minEntry (if q.2 < p.2 then q else p) r := rfl
    rw [step, if_neg (h q (List.mem_cons_self _ _))]
    exact ih p (fun q' hq' => h q' (List.mem_cons_of_mem _ hq'))

theorem dictMin_spec {l : List (String × Int)} {k : String}
    (h : dictMin l = Option.some k) :
    ∃ ts, (k, ts) ∈ l ∧ ∀ q ∈ l, ts ≤ q.2 := by
  match l with
  | [] => cases h
  | p :: r =>
    simp only [dictMin, Option.some.injEq] at h
    refine ⟨(minEntry p r).2, ?_, ?_⟩
    · rw [← h]
      simpa using minEntry_mem r p
    · exact minEntry_le r p

theorem dictMin_isSome {l : List (String × Int)} (h : l ≠ []) :
    ∃ k, dictMin l = Option.some k := by
  match l with
  | [] => exact absurd rfl h
  | p :: r => exact ⟨(minEntry p r).1, rfl⟩

/-! ## Well-formedness preservation -/

theorem wfPair_dictSet {c : List (String × PyVal)} {t : List (String × Int)}
    (hk : keysOf c = keysOf t) (hnd : (keysOf c).Nodup) (key : String)
    (v : PyVal) (now : Int) :
    keysOf (dictSet c key v) = keysOf (dictSet t key now) ∧
      (keysOf (dictSet c key v)).Nodup := by
  have hc := dictContains_congr hk key
  constructor
  · rw [keysOf_dictSet, keysOf_dictSet, hc, hk]
  · exact nodup_keysOf_dictSet v hnd

theorem wfPair_filter {c : List (String × PyVal)} {t : List (String × Int)}
    (hk : keysOf c = keysOf t) (hnd : (keysOf c).Nodup) (k : String) :
    keysOf (c.filter (fun p => p.1 != k)) =
        keysOf (t.filter (fun p => p.1 != k)) ∧
      (keysOf (c.filter (fun p => p.1 != k))).Nodup := by
  constructor
  · rw [keysOf_filter_ne, keysOf_filter_ne, hk]
  · rw [keysOf_filter_ne]
    exact List.Nodup.filter _ hnd

/-- Characterization of the in-memory write (`localPut`) on a well-formed
manager whose configuration (or state) rules out the `min`-on-empty edge:
it succeeds, preserves well-formedness, leaves the new key freshly
stamped, and touches neither config nor Redis client. -/
theorem localPut_spec (m : CacheManager) (key : String) (v : PyVal)
    (now : Int) (hwf : Wf m)
    (hcap : 0 < m.config.max_size ∨ m.in_memory_cache ≠ []) :
    ∃ m', localPut m key v now = Except.ok m' ∧ Wf m' ∧
      dictGet m'.in_memory_cache key = Option.some v ∧
      dictGet m'.cache_timestamps key = Option.some now ∧
      m'.config = m.config ∧ m'.redis_client = m.redis_client := by
  obtain ⟨hk, hnd⟩ := hwf
  unfold localPut
  by_cases hc : (m.in_memory_cache.length : Int) ≥ m.config.max_size
  · rw [if_pos hc]
    have hne : m.in_memory_cache ≠ [] := by
      rcases hcap with hpos | hne
      · intro h0
        rw [h0] at hc
        simp at hc
        omega
      · exact hne
    have htne : m.cache_timestamps ≠ [] := by
      intro h0
      apply hne
      have : keysOf m.in_memory_cache = [] := by
        rw [hk, h0]
        rfl
      cases hcache : m.in_memory_cache with
      | nil => rfl
      | cons p r =>
        rw [hcache] at this
        cases this
    obtain ⟨ok, hmin⟩ := dictMin_isSome htne
    rw [hmin]
    dsimp only
    obtain ⟨ts0, hmem, _⟩ := dictMin_spec hmin
    have hokt : dictContains m.cache_timestamps ok = true :=
      (dictContains_iff _ _).mpr
        (by simpa [keysOf_def] using List.mem_map_of_mem Prod.fst hmem)
    have hokc : dictContains m.in_memory_cache ok = true := by
      rw [dictContains_congr hk ok]
      exact hokt
    rw [pyDel_eq_ok hokc, pyDel_eq_ok hokt]
    have hpair := wfPair_filter hk hnd ok
    have hset := wfPair_dictSet hpair.1 hpair.2 key v now
    refine ⟨_, rfl, ⟨hset.1, hset.2⟩, ?_, ?_, rfl, rfl⟩
    · exact dictGet_dictSet_self _ key v
    · exact dictGet_dictSet_self _ key now
  · rw [if_neg hc]
    have hset := wfPair_dictSet hk hnd key v now
    refine ⟨_, rfl, ⟨hset.1, hset.2⟩, ?_, ?_, rfl, rfl⟩
    · exact dictGet_dictSet_self _ key v
    · exact dictGet_dictSet_self _ key now

/-! ## Operation shape lemmas -/

theorem remoteGet_none_client {m : CacheManager}
    (h : m.redis_client = Option.none) (key : String) :
    remoteGet m key = Option.none := by
  simp [remoteGet, h]

theorem remoteGet_failing {m : CacheManager}
    (h : m.redis_client = Option.some failingRemote) (key : String) :
    remoteGet m key = Option.none := by
  simp [remoteGet, h, failingRemote]

/-- When the remote branch falls through (no client, or a failing one),
`get` is exactly the in-memory lookup on the generated key. -/
theorem get_eq_localGet (md5hex : String → String) (m : CacheManager)
    (now : Int) (ns : String) (kwargs : List (String × PyVal))
    (h : remoteGet m (generate_key_str md5hex ns kwargs) = Option.none) :
    CacheManager.get md5hex m now ns kwargs =
      localGet m now (generate_key_str md5hex ns kwargs) := by
  unfold CacheManager.get generate_key
  dsimp only
  rw [h]

theorem expireEntry_spec (m : CacheManager) (key : String)
    (hcontains : dictContains m.in_memory_cache key = true)
    (hk : keysOf m.in_memory_cache = keysOf m.cache_timestamps) :
    expireEntry m key = Except.ok (PyVal.none,
      { m with
        in_memory_cache := m.in_memory_cache.filter (fun p => p.1 != key),
        cache_timestamps :=
          m.cache_timestamps.filter (fun p => p.1 != key) }) := by
  unfold expireEntry
  rw [pyDel_eq_ok hcontains]
  dsimp only
  have hct : dictContains m.cache_timestamps key = true := by
    rw [← dictContains_congr hk key]
    exact hcontains
  rw [pyDel_eq_ok hct]

theorem localGet_hit {m : CacheManager} {now : Int} {key : String}
    {v : PyVal} {ts : Int} (hv : dictGet m.in_memory_cache key = Option.some v)
    (hts : dictGet m.cache_timestamps key = Option.some ts)
    (hfresh : now - ts < m.config.ttl_seconds) :
    localGet m now key = Except.ok (v, m) := by
  unfold localGet
  rw [hv]
  dsimp only
  rw [hts]
  dsimp only
  rw [if_pos hfresh]

theorem localGet_expired {m : CacheManager} {now : Int} {key : String}
    {v : PyVal} {ts : Int} (hv : dictGet m.in_memory_cache key = Option.some v)
    (hts : dictGet m.cache_timestamps key = Option.some ts)
    (hstale : ¬ now - ts < m.config.ttl_seconds)
    (hk : keysOf m.in_memory_cache = keysOf m.cache_timestamps) :
    localGet m now key = Except.ok (PyVal.none,
      { m with
        in_memory_cache := m.in_memory_cache.filter (fun p => p.1 != key),
        cache_timestamps :=
          m.cache_timestamps.filter (fun p => p.1 != key) }) := by
  unfold localGet
  rw [hv]
  dsimp only
  rw [hts]
  dsimp only
  rw [if_neg hstale]
  exact expireEntry_spec m key (by simp [dictContains, hv]) hk

theorem localGet_miss {m : CacheManager} {now : Int} {key : String}
    (hv : dictGet m.in_memory_cache key = Option.none) :
    localGet m now key = Except.ok (PyVal.none, m) := by
  unfold localGet
  rw [hv]

theorem set_eq_localPut (md5hex : String → String) (m : CacheManager)
    (now : Int) (ns : String) (v : PyVal)
    (kwargs : List (String × PyVal)) :
    CacheManager.set md5hex m now ns v kwargs =
      localPut m (generate_key_str md5hex ns kwargs) v now := rfl

theorem delete_eq_localDelete (md5hex : String → String) (m : CacheManager)
    (ns : String) (kwargs : List (String × PyVal)) :
    CacheManager.delete md5hex m ns kwargs =
      localDelete m (generate_key_str md5hex ns kwargs) := rfl

theorem expireEntry_wf {m : CacheManager} {key : String} {r : PyVal}
    {m' : CacheManager} (hwf : Wf m)
    (h : expireEntry m key = Except.ok (r, m')) : Wf m' := by
  obtain ⟨hk, hnd⟩ := hwf
  unfold expireEntry at h
  cases h1 : pyDel m.in_memory_cache key with
  | error e =>
    rw [h1] at h
    cases h
  | ok c =>
    rw [h1] at h
    dsimp only at h
    cases h2 : pyDel m.cache_timestamps key with
    | error e =>
      rw [h2] at h
      cases h
    | ok t =>
      rw [h2] at h
      dsimp only at h
      have hc := pyDel_ok_inv h1
      have ht := pyDel_ok_inv h2
      have hm : m' = { m with
          in_memory_cache := m.in_memory_cache.filter (fun p => p.1 != key),
          cache_timestamps :=
            m.cache_timestamps.filter (fun p => p.1 != key) } := by
        have := (Prod.mk.injEq _ _ _ _ ▸ Except.ok.inj h)
        rw [← this.2, hc, ht]
      rw [hm]
      have hpair := wfPair_filter hk hnd key
      exact ⟨hpair.1, hpair.2⟩

theorem localGet_wf {m : CacheManager} {now : Int} {key : String} {r : PyVal}
    {m' : CacheManager} (hwf : Wf m)
    (h : localGet m now key = Except.ok (r, m')) : Wf m' := by
  unfold localGet at h
  cases hv : dictGet m.in_memory_cache key with
  | none =>
    rw [hv] at h
    dsimp only at h
    have := (Prod.mk.injEq _ _ _ _ ▸ Except.ok.inj h)
    rw [← this.2]
    exact hwf
  | some v =>
    rw [hv] at h
    dsimp only at h
    cases hts : dictGet m.cache_timestamps key with
    | none =>
      rw [hts] at h
      dsimp only at h
      exact expireEntry_wf hwf h
    | some ts =>
      rw [hts] at h
      dsimp only at h
      by_cases hfresh : now - ts < m.config.ttl_seconds
      · rw [if_pos hfresh] at h
        have := (Prod.mk.injEq _ _ _ _ ▸ Except.ok.inj h)
        rw [← this.2]
        exact hwf
      · rw [if_neg hfresh] at h
        exact expireEntry_wf hwf h

theorem localPut_wf {m : CacheManager} {k : String} {v : PyVal} {now : Int}
    {m' : CacheManager} (hwf : Wf m)
    (h : localPut m k v now = Except.ok m') : Wf m' := by
  obtain ⟨hk, hnd⟩ := hwf
  unfold localPut at h
  by_cases hc : (m.in_memory_cache.length : Int) ≥ m.config.max_size
  · rw [if_pos hc] at h
    cases hmin : dictMin m.cache_timestamps with
    | none =>
      rw [hmin] at h
      cases h
    | some ok =>
      rw [hmin] at h
      dsimp only at h
      cases h1 : pyDel m.in_memory_cache ok with
      | error e =>
        rw [h1] at h
        cases h
      | ok c =>
        rw [h1] at h
        dsimp only at h
        cases h2 : pyDel m.cache_timestamps ok with
        | error e =>
          rw [h2] at h
          cases h
        | ok t =>
          rw [h2] at h
          dsimp only at h
          rw [← Except.ok.inj h]
          have hcf := pyDel_ok_inv h1
          have htf := pyDel_ok_inv h2
          rw [hcf, htf]
          have hpair := wfPair_filter hk hnd ok
          have hset := wfPair_dictSet hpair.1 hpair.2 k v now
          exact ⟨hset.1, hset.2⟩
  · rw [if_neg hc] at h
    rw [← Except.ok.inj h]
    have hset := wfPair_dictSet hk hnd k v now
    exact ⟨hset.1, hset.2⟩

theorem localDelete_wf {m : CacheManager} {key : String} {m' : CacheManager}
    (hwf : Wf m) (h : localDelete m key = Except.ok m') : Wf m' := by
  obtain ⟨hk, hnd⟩ := hwf
  unfold localDelete at h
  by_cases hc : dictContains m.in_memory_cache key
  · rw [if_pos hc] at h
    cases h1 : pyDel m.in_memory_cache key with
    | error e =>
      rw [h1] at h
      cases h
    | ok c =>
      rw [h1] at h
      dsimp only at h
      cases h2 : pyDel m.cache_timestamps key with
      | error e =>
        rw [h2] at h
        cases h
      | ok t =>
        rw [h2] at h
        dsimp only at h
        rw [← Except.ok.inj h]
        rw [pyDel_ok_inv h1, pyDel_ok_inv h2]
        have hpair := wfPair_filter hk hnd key
        exact ⟨hpair.1, hpair.2⟩
  · rw [if_neg hc] at h
    rw [← Except.ok.inj h]
    exact ⟨hk, hnd⟩

theorem get_wf {md5hex : String → String} {m : CacheManager} {now : Int}
    {ns : String} {kwargs : List (String × PyVal)} {r : PyVal}
    {m' : CacheManager} (hwf : Wf m)
    (h : CacheManager.get md5hex m now ns kwargs = Except.ok (r, m')) :
    Wf m' := by
  unfold CacheManager.get generate_key at h
  dsimp only at h
  cases hr : remoteGet m (generate_key_str md5hex ns kwargs) with
  | none =>
    rw [hr] at h
    dsimp only at h
    exact localGet_wf hwf h
  | some v =>
    rw [hr] at h
    dsimp only at h
    have := (Prod.mk.injEq _ _ _ _ ▸ Except.ok.inj h)
    rw [← this.2]
    exact hwf

theorem clear_wf (m : CacheManager) : Wf (CacheManager.clear m) := by
  constructor <;> simp [CacheManager.clear, keysOf]

/-! ## Sequential-insertion lemmas for the capacity-eviction scenario -/

theorem keysOf_entriesV (L : List (String × PyVal × Int)) :
    keysOf (entriesV L) = L.map (fun x => x.1) := by
  simp [keysOf, entriesV, List.map_map]

theorem keysOf_entriesT (L : List (String × PyVal × Int)) :
    keysOf (entriesT L) = L.map (fun x => x.1) := by
  simp [keysOf, entriesT, List.map_map]

theorem entriesV_append (L₁ L₂ : List (String × PyVal × Int)) :
    entriesV (L₁ ++ L₂) = entriesV L₁ ++ entriesV L₂ := by
  simp [entriesV]

theorem entriesT_append (L₁ L₂ : List (String × PyVal × Int)) :
    entriesT (L₁ ++ L₂) = entriesT L₁ ++ entriesT L₂ := by
  simp [entriesT]

theorem dictSet_append_of_not_contains {α : Type} {l : List (String × α)}
    {k : String} (v : α) (h : dictContains l k = false) :
    dictSet l k v = l ++ [(k, v)] := by
  simp [dictSet, h]

theorem putList_append (L₁ L₂ : List (String × PyVal × Int)) :
    ∀ m : CacheManager, putList m (L₁ ++ L₂) =
      match putList m L₁ with
      | Except.ok m' => putList m' L₂
      | Except.error e => Except.error e := by
  induction L₁ with
  | nil => intro m; rfl
  | cons x r ih =>
    intro m
    have hL : putList m (x :: r) =
        match localPut m x.1 x.2.1 x.2.2 with
        | Except.ok m' => putList m' r
        | Except.error e => Except.error e := rfl
    show (match localPut m x.1 x.2.1 x.2.2 with
          | Except.ok m' => putList m' (r ++ L₂)
          | Except.error e => Except.error e) = _
    rw [hL]
    cases localPut m x.1 x.2.1 x.2.2 with
    | error e => rfl
    | ok m' =>
      dsimp only
      exact ih m' 

/-- While there is spare capacity no eviction happens: inserting `L` into a
manager currently holding exactly the entries of `P` (with all keys
distinct and `|P| + |L|` within capacity) just appends the entries. -/
theorem putList_no_evict (L : List (String × PyVal × Int)) :
    ∀ (P : List (String × PyVal × Int)) (m : CacheManager),
      m.in_memory_cache = entriesV P → m.cache_timestamps = entriesT P →
      ((P.length + L.length : Int) ≤ m.config.max_size) →
      (((P ++ L).map (fun x => x.1)).Nodup) →
      putList m L = Except.ok { m with
        in_memory_cache := entriesV (P ++ L),
        cache_timestamps := entriesT (P ++ L) } := by
  induction L with
  | nil =>
    intro P m hC hT _ _
    show Except.ok m = _
    rw [List.append_nil, ← hC, ← hT]
  | cons x L ih =>
    intro P m hC hT hlen hnd
    have hnotmem : ¬ x.1 ∈ P.map (fun y => y.1) := by
      intro hmem
      have hnd2 := hnd
      rw [List.map_append] at hnd2
      have hdisj := (List.nodup_append.mp hnd2).2.2
      exact hdisj hmem (by simp)
    have hcontC : dictContains m.in_memory_cache x.1 = false := by
      rw [hC]
      cases hb : dictContains (entriesV P) x.1 with
      | false => rfl
      | true =>
        exact absurd (by
          have := (dictContains_iff _ _).mp hb
          rwa [keysOf_entriesV] at this) hnotmem
    have hcontT : dictContains m.cache_timestamps x.1 = false := by
      rw [hT]
      cases hb : dictContains (entriesT P) x.1 with
      | false => rfl
      | true =>
        exact absurd (by
          have := (dictContains_iff _ _).mp hb
          rwa [keysOf_entriesT] at this) hnotmem
    have hnoevict : ¬ (m.in_memory_cache.length : Int) ≥ m.config.max_size := by
      rw [hC]
      have : (entriesV P).length = P.length := List.length_map _ _
      rw [this]
      simp only [List.length_cons, List.length_append, List.length_nil,
        List.length_singleton] at hlen
      push_cast at hlen ⊢
      omega
    show (match localPut m x.1 x.2.1 x.2.2 with
          | Except.ok m' => putList m' L
          | Except.error e => Except.error e) = _
    unfold localPut
    rw [if_neg hnoevict]
    dsimp only
    rw [dictSet_append_of_not_contains _ hcontC,
        dictSet_append_of_not_contains _ hcontT]
    have hres := ih (P ++ [x])
      { m with in_memory_cache := m.in_memory_cache ++ [(x.1, x.2.1)],
               cache_timestamps := m.cache_timestamps ++ [(x.1, x.2.2)] }
      (by rw [hC, entriesV_append]; rfl)
      (by rw [hT, entriesT_append]; rfl)
      (by simp only [List.length_append, List.length_singleton,
            List.length_cons, List.length_nil] at hlen ⊢
          push_cast at hlen ⊢
          omega)
      (by rwa [List.append_cons] at hnd)
    have hPL : P ++ x :: L = P ++ [x] ++ L := by rw [List.append_cons]
    rw [hPL, hres]

/-- Filling a fresh manager with exactly one entry more than the capacity
(distinct keys, strictly increasing insertion times) evicts exactly the
first-inserted entry: the final state holds the entries of `L.tail`. -/
theorem putList_overflow (cfg : CacheConfig) (L : List (String × PyVal × Int))
    (hmax : 0 < cfg.max_size)
    (hlen : (L.length : Int) = cfg.max_size + 1)
    (hnd : (L.map (fun z => z.1)).Nodup)
    (hinc : (L.map (fun z => z.2.2)).Pairwise (fun a b => a < b)) :
    putList (mkManager cfg) L =
      Except.ok ⟨cfg, entriesV L.tail, entriesT L.tail, Option.none⟩ := by
  have hneL : L ≠ [] := by
    intro h0
    rw [h0] at hlen
    simp at hlen
    omega
  obtain ⟨x, hx⟩ : ∃ z, z = L.getLast hneL := ⟨_, rfl⟩
  have hsplit : L.dropLast ++ [x] = L := by
    rw [hx]
    exact List.dropLast_append_getLast hneL
  have hlen0 : ((L.dropLast).length : Int) = cfg.max_size := by
    rw [List.length_dropLast]
    omega
  have hne0 : L.dropLast ≠ [] := by
    intro h0
    rw [h0] at hlen0
    simp at hlen0
    omega
  obtain ⟨y, L₀, hA⟩ : ∃ y L₀, L.dropLast = y :: L₀ := by
    cases h : L.dropLast with
    | nil => exact absurd h hne0
    | cons y r => exact ⟨y, r, rfl⟩
  have hndA : (((y :: L₀) ++ [x]).map (fun z => z.1)).Nodup := by
    rw [← hA, hsplit]
    exact hnd
  have hincA : (((y :: L₀) ++ [x]).map (fun z => z.2.2)).Pairwise
      (fun a b => a < b) := by
    rw [← hA, hsplit]
    exact hinc
  have hlenA : (((y :: L₀).length : Int)) = cfg.max_size := by
    rw [← hA]
    exact hlen0
  -- facts extracted from nodup / pairwise
  have hkey_y : ∀ z ∈ L₀ ++ [x], z.1 ≠ y.1 := by
    intro z hz he
    rw [List.cons_append, List.map_cons, List.nodup_cons] at hndA
    exact hndA.1 (he ▸ List.mem_map_of_mem _ hz)
  have hkey_x : ¬ x.1 ∈ L₀.map (fun z => z.1) := by
    intro hmem
    rw [List.cons_append, List.map_cons, List.nodup_cons,
        List.map_append] at hndA
    have hdisj := (List.nodup_append.mp hndA.2).2.2
    exact hdisj hmem (by simp)
  have htime_y : ∀ q ∈ entriesT L₀, ¬ q.2 < y.2.2 := by
    intro q hq
    rw [List.cons_append, List.map_cons, List.pairwise_cons] at hincA
    obtain ⟨z, hz, hzq⟩ := List.mem_map.mp hq
    have : y.2.2 < z.2.2 :=
      hincA.1 _ (List.mem_map_of_mem _ (List.mem_append_left _ hz))
    rw [← hzq]
    exact not_lt_of_gt this
  -- run the first max_size inserts: no eviction
  rw [← hsplit, putList_append]
  have h0 := putList_no_evict L.dropLast [] (mkManager cfg) rfl rfl
    (by simp only [List.length_nil, mkManager]
        push_cast
        omega)
    (by
      simp only [List.nil_append]
      exact List.Nodup.sublist ((List.dropLast_sublist L).map _) hnd)
  rw [h0]
  dsimp only
  rw [hA]
  -- the overflowing insert
  have hcontC : dictContains ((y.1, y.2.1) :: entriesV L₀) y.1 = true := by
    simp [dictContains, dictGet]
  have hcontT : dictContains ((y.1, y.2.2) :: entriesT L₀) y.1 = true := by
    simp [dictContains, dictGet]
  have hfiltC : ((y.1, y.2.1) :: entriesV L₀).filter
      (fun p => p.1 != y.1) = entriesV L₀ := by
    rw [List.filter_cons]
    rw [show (((y.1, y.2.1) : String × PyVal).1 != y.1) = false by simp]
    simp only [Bool.false_eq_true, if_false]
    apply List.filter_eq_self.mpr
    intro p hp
    obtain ⟨z, hz, hzp⟩ := List.mem_map.mp hp
    rw [← hzp]
    simpa using hkey_y z (List.mem_append_left _ hz)
  have hfiltT : ((y.1, y.2.2) :: entriesT L₀).filter
      (fun p => p.1 != y.1) = entriesT L₀ := by
    rw [List.filter_cons]
    rw [show (((y.1, y.2.2) : String × Int).1 != y.1) = false by simp]
    simp only [Bool.false_eq_true, if_false]
    apply List.filter_eq_self.mpr
    intro p hp
    obtain ⟨z, hz, hzp⟩ := List.mem_map.mp hp
    rw [← hzp]
    simpa using hkey_y z (List.mem_append_left _ hz)
  have hsetC : dictContains (entriesV L₀) x.1 = false := by
    cases hb : dictContains (entriesV L₀) x.1 with
    | false => rfl
    | true =>
      exact absurd (by
        have := (dictContains_iff _ _).mp hb
        rwa [keysOf_entriesV] at this) hkey_x
  have hsetT : dictContains (entriesT L₀) x.1 = false := by
    cases hb : dictContains (entriesT L₀) x.1 with
    | false => rfl
    | true =>
      exact absurd (by
        have := (dictContains_iff _ _).mp hb
        rwa [keysOf_entriesT] at this) hkey_x
  have hput : localPut
      ⟨cfg, entriesV (y :: L₀), entriesT (y :: L₀), Option.none⟩
      x.1 x.2.1 x.2.2 =
      Except.ok ⟨cfg, entriesV (L₀ ++ [x]), entriesT (L₀ ++ [x]),
        Option.none⟩ := by
    unfold localPut
    rw [if_pos (by
      show ((entriesV (y :: L₀)).length : Int) ≥ cfg.max_size
      rw [show (entriesV (y :: L₀)).length = (y :: L₀).length from
        List.length_map _ _]
      omega)]
    have hdm : dictMin (entriesT (y :: L₀)) = Option.some y.1 := by
      show Option.some (minEntry (y.1, y.2.2) (entriesT L₀)).1 = _
      rw [minEntry_eq_head _ _ htime_y]
    rw [show (⟨cfg, entriesV (y :: L₀), entriesT (y :: L₀), Option.none⟩ :
        CacheManager).cache_timestamps = entriesT (y :: L₀) from rfl, hdm]
    dsimp only
    rw [show entriesV (y :: L₀) = (y.1, y.2.1) :: entriesV L₀ from rfl]
    rw [pyDel_eq_ok hcontC]
    dsimp only
    rw [show entriesT (y :: L₀) = (y.1, y.2.2) :: entriesT L₀ from rfl]
    rw [pyDel_eq_ok hcontT]
    dsimp only
    rw [hfiltC, hfiltT,
        dictSet_append_of_not_contains _ hsetC,
        dictSet_append_of_not_contains _ hsetT]
    rw [show entriesV L₀ ++ [(x.1, x.2.1)] = entriesV (L₀ ++ [x]) from
      (entriesV_append L₀ [x]).symm,
        show entriesT L₀ ++ [(x.1, x.2.2)] = entriesT (L₀ ++ [x]) from
      (entriesT_append L₀ [x]).symm]
  show (match localPut
      ⟨cfg, entriesV (y :: L₀), entriesT (y :: L₀), Option.none⟩
      x.1 x.2.1 x.2.2 with
    | Except.ok m' => putList m' []
    | Except.error e => Except.error e) = _
  rw [hput]
  rfl

/-! ## Completion (no-raise) lemmas and key canonicalization -/

theorem localGet_isOk (m : CacheManager) (now : Int) (key : String)
    (hwf : Wf m) : ∃ r m', localGet m now key = Except.ok (r, m') := by
  cases hv : dictGet m.in_memory_cache key with
  | none => exact ⟨_, _, localGet_miss hv⟩
  | some v =>
    have hcc : dictContains m.in_memory_cache key = true := by
      simp [dictContains, hv]
    have hct : dictContains m.cache_timestamps key = true := by
      rw [← dictContains_congr hwf.1 key]
      exact hcc
    cases hts : dictGet m.cache_timestamps key with
    | none =>
      exact absurd (by simp [dictContains, hts] : dictContains
        m.cache_timestamps key = false) (by simp [hct])
    | some ts =>
      by_cases hfresh : now - ts < m.config.ttl_seconds
      · exact ⟨_, _, localGet_hit hv hts hfresh⟩
      · exact ⟨_, _, localGet_expired hv hts hfresh hwf.1⟩

theorem localDelete_isOk (m : CacheManager) (key : String) (hwf : Wf m) :
    ∃ m', localDelete m key = Except.ok m' := by
  by_cases hc : dictContains m.in_memory_cache key
  · have hct : dictContains m.cache_timestamps key = true := by
      rw [← dictContains_congr hwf.1 key]
      exact hc
    have heq : localDelete m key = Except.ok { m with
        in_memory_cache := m.in_memory_cache.filter (fun p => p.1 != key),
        cache_timestamps :=
          m.cache_timestamps.filter (fun p => p.1 != key) } := by
      unfold localDelete
      rw [if_pos hc, pyDel_eq_ok hc]
      dsimp only
      rw [pyDel_eq_ok hct]
    exact ⟨_, heq⟩
  · refine ⟨m, ?_⟩
    unfold localDelete
    rw [if_neg hc]

/-- Sorting by key is canonical: two permutations of the same item list
with distinct keys sort to the same list. -/
theorem insertionSort_perm_eq {a1 a2 : List (String × PyVal)}
    (hperm : a1.Perm a2) (hnd : (a1.map Prod.fst).Nodup) :
    List.insertionSort keyLE a1 = List.insertionSort keyLE a2 := by
  have hp : (List.insertionSort keyLE a1).Perm (List.insertionSort keyLE a2) :=
    ((List.perm_insertionSort keyLE a1).trans hperm).trans
      (List.perm_insertionSort keyLE a2).symm
  have hs1 : List.Sorted keyLE (List.insertionSort keyLE a1) :=
    List.sorted_insertionSort keyLE a1
  have hs2 : List.Sorted keyLE (List.insertionSort keyLE a2) :=
    List.sorted_insertionSort keyLE a2
  have hstrict : ∀ l : List (String × PyVal), List.Sorted keyLE l →
      (l.map Prod.fst).Nodup → List.Sorted keyLT l := by
    intro l hle hnd'
    have hne : l.Pairwise (fun p q : String × PyVal => p.1 ≠ q.1) :=
      List.pairwise_map.mp hnd'
    exact (hle.and hne).imp (fun h => h)
  have hnd1 : ((List.insertionSort keyLE a1).map Prod.fst).Nodup :=
    (((List.perm_insertionSort keyLE a1).map Prod.fst).nodup_iff).mpr hnd
  have hnd2 : ((List.insertionSort keyLE a2).map Prod.fst).Nodup :=
    (((List.perm_insertionSort keyLE a2).map Prod.fst).nodup_iff).mpr
      ((hperm.map Prod.fst).nodup_iff.mp hnd)
  exact List.eq_of_perm_of_sorted hp
    (hstrict _ hs1 hnd1) (hstrict _ hs2 hnd2)

theorem sync_wrapper_hit {σ : Type} (md5hex : String → String)
    (cm : CacheManager) (ns : String) (func : σ → PyVal × σ)
    (argsStr kwargsStr : String) (now : Int) (s : σ) {g : PyVal}
    {cmg : CacheManager}
    (hget : CacheManager.get md5hex cm now ns
      [("args", PyVal.str argsStr), ("kwargs", PyVal.str kwargsStr)] =
      Except.ok (g, cmg)) (hne : g ≠ PyVal.none) :
    sync_wrapper md5hex cm ns func argsStr kwargsStr now s =
      Except.ok (g, cmg, s) := by
  unfold sync_wrapper
  dsimp only
  rw [hget]
  dsimp only
  rw [if_pos hne]

theorem sync_wrapper_miss {σ : Type} (md5hex : String → String)
    (cm : CacheManager) (ns : String) (func : σ → PyVal × σ)
    (argsStr kwargsStr : String) (now : Int) (s : σ)
    {cmg cm₂ : CacheManager}
    (hget : CacheManager.get md5hex cm now ns
      [("args", PyVal.str argsStr), ("kwargs", PyVal.str kwargsStr)] =
      Except.ok (PyVal.none, cmg))
    (hset : CacheManager.set md5hex cmg now ns (func s).1
      [("args", PyVal.str argsStr), ("kwargs", PyVal.str kwargsStr)] =
      Except.ok cm₂) :
    sync_wrapper md5hex cm ns func argsStr kwargsStr now s =
      Except.ok ((func s).1, cm₂, (func s).2) := by
  unfold sync_wrapper
  dsimp only
  rw [hget]
  dsimp only
  rw [if_neg (by simp)]
  rw [hset]

/-- At capacity, `localPut` evicts exactly one entry — one carrying the
minimal timestamp — and then inserts the new key. -/
theorem localPut_evicts (m : CacheManager) (key : String) (v : PyVal)
    (now : Int) (hwf : Wf m) (hne : m.in_memory_cache ≠ [])
    (hcap : (m.in_memory_cache.length : Int) ≥ m.config.max_size) :
    ∃ e ts, dictMin m.cache_timestamps = Option.some e ∧
      (e, ts) ∈ m.cache_timestamps ∧ (∀ q ∈ m.cache_timestamps, ts ≤ q.2) ∧
      localPut m key v now = Except.ok { m with
        in_memory_cache :=
          dictSet (m.in_memory_cache.filter (fun p => p.1 != e)) key v,
        cache_timestamps :=
          dictSet (m.cache_timestamps.filter (fun p => p.1 != e)) key now } := by
  obtain ⟨hk, hnd⟩ := hwf
  have htne : m.cache_timestamps ≠ [] := by
    intro h0
    apply hne
    have hkeys : keysOf m.in_memory_cache = [] := by
      rw [hk, h0]
      rfl
    cases hcache : m.in_memory_cache with
    | nil => rfl
    | cons p r =>
      rw [hcache] at hkeys
      cases hkeys
  obtain ⟨e, hmin⟩ := dictMin_isSome htne
  obtain ⟨ts, hmem, hle⟩ := dictMin_spec hmin
  have hokt : dictContains m.cache_timestamps e = true :=
    (dictContains_iff _ _).mpr
      (by simpa [keysOf_def] using List.mem_map_of_mem Prod.fst hmem)
  have hokc : dictContains m.in_memory_cache e = true := by
    rw [dictContains_congr hk e]
    exact hokt
  refine ⟨e, ts, hmin, hmem, hle, ?_⟩
  unfold localPut
  rw [if_pos hcap, hmin]
  dsimp only
  rw [pyDel_eq_ok hokc]
  dsimp only
  rw [pyDel_eq_ok hokt]

/-! ## Claim theorems -/

/-- C1: for every namespace, value and argument mapping, `set` followed
immediately by `get` (on a well-formed manager, with the remote tier
absent, a positive capacity, and before `ttl_seconds` have elapsed, with no
intervening operations) returns the stored value via the local tier. -/
theorem claim_C1_roundtrip (md5hex : String → String) (m : CacheManager)
    (ns : String) (kwargs : List (String × PyVal)) (v : PyVal) (t0 t1 : Int)
    (hr : m.redis_client = Option.none) (hwf : Wf m)
    (hmax : 0 < m.config.max_size)
    (hfresh : t1 - t0 < m.config.ttl_seconds) :
    ∃ m₁, CacheManager.set md5hex m t0 ns v kwargs = Except.ok m₁ ∧
      CacheManager.get md5hex m₁ t1 ns kwargs = Except.ok (v, m₁) := by
  obtain ⟨m₁, hput, hwf₁, hv, hts, hcfg, hcli⟩ :=
    localPut_spec m (generate_key_str md5hex ns kwargs) v t0 hwf (Or.inl hmax)
  refine ⟨m₁, ?_, ?_⟩
  · rw [set_eq_localPut]
    exact hput
  · rw [get_eq_localGet md5hex m₁ t1 ns kwargs
      (remoteGet_none_client (by rw [hcli, hr]) _)]
    exact localGet_hit hv hts (by rw [hcfg]; exact hfresh)

theorem claim_C1_roundtrip_witness :
    (0 : Int) < (mkManager ⟨100, 2, true, "u"⟩).config.max_size ∧
    (50 : Int) - 0 < (mkManager ⟨100, 2, true, "u"⟩).config.ttl_seconds ∧
    ∃ m₁, CacheManager.set (fun s => s) (mkManager ⟨100, 2, true, "u"⟩) 0
        "ns" (PyVal.str "A") [("id", PyVal.int 1)] = Except.ok m₁ ∧
      CacheManager.get (fun s => s) m₁ 50 "ns" [("id", PyVal.int 1)] =
        Except.ok (PyVal.str "A", m₁) :=
  ⟨by decide, by decide,
    claim_C1_roundtrip (fun s => s) (mkManager ⟨100, 2, true, "u"⟩) "ns"
      [("id", PyVal.int 1)] (PyVal.str "A") 0 50 rfl (by decide) (by decide)
      (by decide)⟩

/-- C2: the key encoder is deterministic under permutation of the argument
mapping — two orderings of the same (distinct-keyed) pairs produce the same
cache key, because `sort_keys=True` canonicalizes the serialization. -/
theorem claim_C2_key_determinism (md5hex : String → String) (ns : String)
    (a1 a2 : List (String × PyVal)) (hperm : a1.Perm a2)
    (hnd : (a1.map Prod.fst).Nodup) :
    generate_key md5hex ns a1 = generate_key md5hex ns a2 := by
  unfold generate_key generate_key_str json_dumps_sorted
  rw [insertionSort_perm_eq hperm hnd]

theorem claim_C2_key_determinism_witness :
    ([("b", PyVal.int 2), ("a", PyVal.int 1)] : List (String × PyVal)).Perm
        [("a", PyVal.int 1), ("b", PyVal.int 2)] ∧
    generate_key (fun s => s) "ns" [("b", PyVal.int 2), ("a", PyVal.int 1)] =
      generate_key (fun s => s) "ns"
        [("a", PyVal.int 1), ("b", PyVal.int 2)] :=
  ⟨by decide,
    claim_C2_key_determinism (fun s => s) "ns" _ _ (by decide) (by decide)⟩

/-- C4: a key set at `t0` with TTL `T` reads back as absent at any `t` with
`t - t0 ≥ T` — and the entry is removed from both dicts (lazy expiry) —
while any `t` with `t - t0 < T` still reads the stored value; the boundary
age of exactly `T` counts as expired (the source's freshness test is the
strict `age < ttl_seconds`). -/
theorem claim_C4_expiry (md5hex : String → String) (m : CacheManager)
    (ns : String) (kwargs : List (String × PyVal)) (v : PyVal) (t0 t : Int)
    (hr : m.redis_client = Option.none) (hwf : Wf m)
    (hmax : 0 < m.config.max_size) :
    ∃ m₁, CacheManager.set md5hex m t0 ns v kwargs = Except.ok m₁ ∧
      (m.config.ttl_seconds ≤ t - t0 →
        ∃ m₂, CacheManager.get md5hex m₁ t ns kwargs =
            Except.ok (PyVal.none, m₂) ∧
          dictGet m₂.in_memory_cache (generate_key_str md5hex ns kwargs) =
            Option.none ∧
          dictGet m₂.cache_timestamps (generate_key_str md5hex ns kwargs) =
            Option.none) ∧
      (t - t0 < m.config.ttl_seconds →
        CacheManager.get md5hex m₁ t ns kwargs = Except.ok (v, m₁)) := by
  obtain ⟨m₁, hput, hwf₁, hv, hts, hcfg, hcli⟩ :=
    localPut_spec m (generate_key_str md5hex ns kwargs) v t0 hwf (Or.inl hmax)
  have hfall := get_eq_localGet md5hex m₁ t ns kwargs
    (remoteGet_none_client (by rw [hcli, hr]) _)
  refine ⟨m₁, by rw [set_eq_localPut]; exact hput, ?_, ?_⟩
  · intro hstale
    rw [hfall]
    rw [localGet_expired hv hts (by rw [hcfg]; omega) hwf₁.1]
    exact ⟨_, rfl, dictGet_filter_self _ _, dictGet_filter_self _ _⟩
  · intro hfresh
    rw [hfall]
    exact localGet_hit hv hts (by rw [hcfg]; exact hfresh)

theorem claim_C4_expiry_witness :
    (0 : Int) < (mkManager ⟨100, 2, true, "u"⟩).config.max_size ∧
    (mkManager ⟨100, 2, true, "u"⟩).config.ttl_seconds ≤ (100 : Int) - 0 ∧
    ∃ m₁, CacheManager.set (fun s => s) (mkManager ⟨100, 2, true, "u"⟩) 0
        "ns" (PyVal.str "A") [("id", PyVal.int 1)] = Except.ok m₁ ∧
      ((mkManager ⟨100, 2, true, "u"⟩).config.ttl_seconds ≤ (100 : Int) - 0 →
        ∃ m₂, CacheManager.get (fun s => s) m₁ 100 "ns"
            [("id", PyVal.int 1)] = Except.ok (PyVal.none, m₂) ∧
          dictGet m₂.in_memory_cache
            (generate_key_str (fun s => s) "ns" [("id", PyVal.int 1)]) =
            Option.none ∧
          dictGet m₂.cache_timestamps
            (generate_key_str (fun s => s) "ns" [("id", PyVal.int 1)]) =
            Option.none) :=
  ⟨by decide, by decide, by
    obtain ⟨m₁, hset, hexp, _⟩ := claim_C4_expiry (fun s => s)
      (mkManager ⟨100, 2, true, "u"⟩) "ns" [("id", PyVal.int 1)]
      (PyVal.str "A") 0 100 rfl (by decide) (by decide)
    exact ⟨m₁, hset, hexp⟩⟩

/-- C5: with the Redis client in a failing state every operation completes
without raising — `get` is exactly the local-tier lookup (the remote
failure is swallowed and treated as a miss), and `set`/`delete` succeed
with the failure silently ignored. -/
theorem claim_C5_failopen (md5hex : String → String) (m : CacheManager)
    (now : Int) (ns : String) (kwargs : List (String × PyVal)) (v : PyVal)
    (hr : m.redis_client = Option.some failingRemote) (hwf : Wf m)
    (hmax : 0 < m.config.max_size) :
    (CacheManager.get md5hex m now ns kwargs =
        localGet m now (generate_key_str md5hex ns kwargs) ∧
      ∃ r m', CacheManager.get md5hex m now ns kwargs =
        Except.ok (r, m')) ∧
    (∃ m', CacheManager.set md5hex m now ns v kwargs = Except.ok m') ∧
    (∃ m', CacheManager.delete md5hex m ns kwargs = Except.ok m') := by
  have hfall := get_eq_localGet md5hex m now ns kwargs
    (remoteGet_failing hr _)
  refine ⟨⟨hfall, ?_⟩, ?_, ?_⟩
  · obtain ⟨r, m', h⟩ :=
      localGet_isOk m now (generate_key_str md5hex ns kwargs) hwf
    exact ⟨r, m', by rw [hfall]; exact h⟩
  · obtain ⟨m₁, hput, _⟩ :=
      localPut_spec m (generate_key_str md5hex ns kwargs) v now hwf
        (Or.inl hmax)
    exact ⟨m₁, by rw [set_eq_localPut]; exact hput⟩
  · obtain ⟨m₁, hdel⟩ :=
      localDelete_isOk m (generate_key_str md5hex ns kwargs) hwf
    exact ⟨m₁, by rw [delete_eq_localDelete]; exact hdel⟩

theorem claim_C5_failopen_witness :
    Wf ⟨⟨100, 2, true, "u"⟩, [("k", PyVal.int 1)], [("k", 0)],
        Option.some failingRemote⟩ ∧
    ((CacheManager.get (fun s => s)
        ⟨⟨100, 2, true, "u"⟩, [("k", PyVal.int 1)], [("k", 0)],
          Option.some failingRemote⟩ 5 "ns" [("id", PyVal.int 1)] =
        localGet ⟨⟨100, 2, true, "u"⟩, [("k", PyVal.int 1)], [("k", 0)],
          Option.some failingRemote⟩ 5
          (generate_key_str (fun s => s) "ns" [("id", PyVal.int 1)]) ∧
      ∃ r m', CacheManager.get (fun s => s)
        ⟨⟨100, 2, true, "u"⟩, [("k", PyVal.int 1)], [("k", 0)],
          Option.some failingRemote⟩ 5 "ns" [("id", PyVal.int 1)] =
        Except.ok (r, m')) ∧
    (∃ m', CacheManager.set (fun s => s)
        ⟨⟨100, 2, true, "u"⟩, [("k", PyVal.int 1)], [("k", 0)],
          Option.some failingRemote⟩ 5 "ns" (PyVal.str "B")
          [("id", PyVal.int 1)] = Except.ok m') ∧
    (∃ m', CacheManager.delete (fun s => s)
        ⟨⟨100, 2, true, "u"⟩, [("k", PyVal.int 1)], [("k", 0)],
          Option.some failingRemote⟩ "ns" [("id", PyVal.int 1)] =
        Except.ok m')) :=
  ⟨by decide,
    claim_C5_failopen (fun s => s)
      ⟨⟨100, 2, true, "u"⟩, [("k", PyVal.int 1)], [("k", 0)],
        Option.some failingRemote⟩ 5 "ns" [("id", PyVal.int 1)]
      (PyVal.str "B") rfl (by decide) (by decide)⟩

/-- C3: at capacity (`size >= max_size` before the insert) the in-memory
write evicts exactly one entry — one holding the minimal `insertedAt`
timestamp — before inserting; in particular, filling a fresh manager with
`max_size + 1` distinct keys at increasing times leaves exactly `max_size`
keys resident, the survivors being every key but the earliest-inserted
one. -/
theorem claim_C3_capacity_eviction :
    (∀ (m : CacheManager) (key : String) (v : PyVal) (now : Int),
      Wf m → m.in_memory_cache ≠ [] →
      (m.in_memory_cache.length : Int) ≥ m.config.max_size →
      ∃ e ts, dictMin m.cache_timestamps = Option.some e ∧
        (e, ts) ∈ m.cache_timestamps ∧
        (∀ q ∈ m.cache_timestamps, ts ≤ q.2) ∧
        localPut m key v now = Except.ok { m with
          in_memory_cache :=
            dictSet (m.in_memory_cache.filter (fun p => p.1 != e)) key v,
          cache_timestamps :=
            dictSet (m.cache_timestamps.filter (fun p => p.1 != e))
              key now }) ∧
    (∀ (cfg : CacheConfig) (L : List (String × PyVal × Int)),
      0 < cfg.max_size → (L.length : Int) = cfg.max_size + 1 →
      (L.map (fun z => z.1)).Nodup →
      (L.map (fun z => z.2.2)).Pairwise (fun a b => a < b) →
      putList (mkManager cfg) L =
        Except.ok ⟨cfg, entriesV L.tail, entriesT L.tail, Option.none⟩ ∧
      ((entriesV L.tail).length : Int) = cfg.max_size) := by
  constructor
  · intro m key v now hwf hne hcap
    exact localPut_evicts m key v now hwf hne hcap
  · intro cfg L hmax hlen hnd hinc
    refine ⟨putList_overflow cfg L hmax hlen hnd hinc, ?_⟩
    rw [show (entriesV L.tail).length = L.tail.length from List.length_map _ _,
        List.length_tail]
    omega

theorem claim_C3_capacity_eviction_witness :
    Wf ⟨⟨100, 2, true, "u"⟩, [("k1", PyVal.str "A"), ("k2", PyVal.str "B")],
        [("k1", 0), ("k2", 1)], Option.none⟩ ∧
    (∃ e ts,
      dictMin (⟨⟨100, 2, true, "u"⟩,
        [("k1", PyVal.str "A"), ("k2", PyVal.str "B")],
        [("k1", 0), ("k2", 1)], Option.none⟩ :
          CacheManager).cache_timestamps = Option.some e ∧
      (e, ts) ∈ (⟨⟨100, 2, true, "u"⟩,
        [("k1", PyVal.str "A"), ("k2", PyVal.str "B")],
        [("k1", 0), ("k2", 1)], Option.none⟩ :
          CacheManager).cache_timestamps ∧
      (∀ q ∈ (⟨⟨100, 2, true, "u"⟩,
        [("k1", PyVal.str "A"), ("k2", PyVal.str "B")],
        [("k1", 0), ("k2", 1)], Option.none⟩ :
          CacheManager).cache_timestamps, ts ≤ q.2) ∧
      localPut ⟨⟨100, 2, true, "u"⟩,
        [("k1", PyVal.str "A"), ("k2", PyVal.str "B")],
        [("k1", 0), ("k2", 1)], Option.none⟩ "k3" (PyVal.str "C") 2 =
        Except.ok { (⟨⟨100, 2, true, "u"⟩,
          [("k1", PyVal.str "A"), ("k2", PyVal.str "B")],
          [("k1", 0), ("k2", 1)], Option.none⟩ : CacheManager) with
          in_memory_cache :=
            dictSet ([("k1", PyVal.str "A"),
              ("k2", PyVal.str "B")].filter (fun p => p.1 != e))
              "k3" (PyVal.str "C"),
          cache_timestamps :=
            dictSet (([("k1", 0), ("k2", 1)] :
              List (String × Int)).filter (fun p => p.1 != e)) "k3" 2 }) ∧
    (putList (mkManager ⟨100, 2, true, "u"⟩)
        [("k1", PyVal.str "A", 0), ("k2", PyVal.str "B", 1),
         ("k3", PyVal.str "C", 2)] =
      Except.ok ⟨⟨100, 2, true, "u"⟩,
        entriesV [("k2", PyVal.str "B", 1), ("k3", PyVal.str "C", 2)],
        entriesT [("k2", PyVal.str "B", 1), ("k3", PyVal.str "C", 2)],
        Option.none⟩ ∧
      ((entriesV ([("k1", PyVal.str "A", 0), ("k2", PyVal.str "B", 1),
        ("k3", PyVal.str "C", 2)] :
          List (String × PyVal × Int)).tail).length : Int) =
        (⟨100, 2, true, "u"⟩ : CacheConfig).max_size) :=
  ⟨by decide,
    claim_C3_capacity_eviction.1
      ⟨⟨100, 2, true, "u"⟩, [("k1", PyVal.str "A"), ("k2", PyVal.str "B")],
        [("k1", 0), ("k2", 1)], Option.none⟩ "k3" (PyVal.str "C") 2
      (by decide) (by decide) (by decide),
    claim_C3_capacity_eviction.2 ⟨100, 2, true, "u"⟩
      [("k1", PyVal.str "A", 0), ("k2", PyVal.str "B", 1),
       ("k3", PyVal.str "C", 2)]
      (by decide) (by decide) (by decide) (by decide)⟩

/-- C9: every operation preserves the structural invariant that the value
dict and the timestamp dict hold exactly the same keys (each resident entry
has exactly one insertion timestamp and vice versa — here in the strong
form: identical, duplicate-free key sequences). -/
theorem claim_C9_key_sync (md5hex : String → String) (m : CacheManager)
    (now : Int) (ns : String) (kwargs : List (String × PyVal)) (v : PyVal)
    (hwf : Wf m) :
    (∀ m', CacheManager.set md5hex m now ns v kwargs = Except.ok m' →
      Wf m') ∧
    (∀ r m', CacheManager.get md5hex m now ns kwargs = Except.ok (r, m') →
      Wf m') ∧
    (∀ m', CacheManager.delete md5hex m ns kwargs = Except.ok m' →
      Wf m') ∧
    Wf (CacheManager.clear m) := by
  refine ⟨?_, ?_, ?_, clear_wf m⟩
  · intro m' h
    rw [set_eq_localPut] at h
    exact localPut_wf hwf h
  · intro r m' h
    exact get_wf hwf h
  · intro m' h
    rw [delete_eq_localDelete] at h
    exact localDelete_wf hwf h

theorem claim_C9_key_sync_witness :
    Wf ⟨⟨100, 2, true, "u"⟩, [("k", PyVal.int 1)], [("k", 0)],
        Option.none⟩ ∧
    ((∀ m', CacheManager.set (fun s => s)
        ⟨⟨100, 2, true, "u"⟩, [("k", PyVal.int 1)], [("k", 0)],
          Option.none⟩ 5 "ns" (PyVal.str "B") [("id", PyVal.int 1)] =
        Except.ok m' → Wf m') ∧
    (∀ r m', CacheManager.get (fun s => s)
        ⟨⟨100, 2, true, "u"⟩, [("k", PyVal.int 1)], [("k", 0)],
          Option.none⟩ 5 "ns" [("id", PyVal.int 1)] =
        Except.ok (r, m') → Wf m') ∧
    (∀ m', CacheManager.delete (fun s => s)
        ⟨⟨100, 2, true, "u"⟩, [("k", PyVal.int 1)], [("k", 0)],
          Option.none⟩ "ns" [("id", PyVal.int 1)] =
        Except.ok m' → Wf m') ∧
    Wf (CacheManager.clear ⟨⟨100, 2, true, "u"⟩, [("k", PyVal.int 1)],
        [("k", 0)], Option.none⟩)) :=
  ⟨by decide,
    claim_C9_key_sync (fun s => s)
      ⟨⟨100, 2, true, "u"⟩, [("k", PyVal.int 1)], [("k", 0)], Option.none⟩
      5 "ns" [("id", PyVal.int 1)] (PyVal.str "B") (by decide)⟩

/-- C10: the absent result of `get` is the value `None` itself — after
storing `None` the subsequent `get` returns `PyVal.none`, the very value a
genuine miss returns (so a cached `None` is indistinguishable from a miss),
and a memoized computation returning `None` is re-invoked (with its side
effect advancing again) on every call. -/
theorem claim_C10_none_indistinguishable (md5hex : String → String)
    (m : CacheManager) (ns : String) (kwargs : List (String × PyVal))
    {σ : Type} (f : σ → PyVal × σ) (s : σ) (a k : String) (t0 t1 : Int)
    (hr : m.redis_client = Option.none) (hC : m.in_memory_cache = [])
    (hT : m.cache_timestamps = []) (hmax : 0 < m.config.max_size)
    (hfresh : t1 - t0 < m.config.ttl_seconds)
    (hres : (f s).1 = PyVal.none) :
    (∃ m₁, CacheManager.set md5hex m t0 ns PyVal.none kwargs =
        Except.ok m₁ ∧
      CacheManager.get md5hex m₁ t1 ns kwargs =
        Except.ok (PyVal.none, m₁)) ∧
    CacheManager.get md5hex m t1 ns kwargs = Except.ok (PyVal.none, m) ∧
    (∃ cm₁ cm₂, sync_wrapper md5hex m ns f a k t0 s =
        Except.ok (PyVal.none, cm₁, (f s).2) ∧
      sync_wrapper md5hex cm₁ ns f a k t1 ((f s).2) =
        Except.ok ((f ((f s).2)).1, cm₂, (f ((f s).2)).2)) := by
  have hwf : Wf m := ⟨by rw [hC, hT]; rfl, by rw [hC]; exact List.nodup_nil⟩
  refine ⟨?_, ?_, ?_⟩
  · obtain ⟨m₁, hput, hwf₁, hv, hts, hcfg, hcli⟩ :=
      localPut_spec m (generate_key_str md5hex ns kwargs) PyVal.none t0 hwf
        (Or.inl hmax)
    refine ⟨m₁, by rw [set_eq_localPut]; exact hput, ?_⟩
    rw [get_eq_localGet md5hex m₁ t1 ns kwargs
      (remoteGet_none_client (by rw [hcli, hr]) _)]
    exact localGet_hit hv hts (by rw [hcfg]; exact hfresh)
  · rw [get_eq_localGet md5hex m t1 ns kwargs (remoteGet_none_client hr _)]
    exact localGet_miss (by rw [hC]; rfl)
  · have hget1 : CacheManager.get md5hex m t0 ns
        [("args", PyVal.str a), ("kwargs", PyVal.str k)] =
        Except.ok (PyVal.none, m) := by
      rw [get_eq_localGet md5hex m t0 ns _ (remoteGet_none_client hr _)]
      exact localGet_miss (by rw [hC]; rfl)
    obtain ⟨cm₁, hput1, hwf₁, hv₁, hts₁, hcfg₁, hcli₁⟩ :=
      localPut_spec m (generate_key_str md5hex ns
        [("args", PyVal.str a), ("kwargs", PyVal.str k)]) (f s).1 t0 hwf
        (Or.inl hmax)
    have hw1 := sync_wrapper_miss md5hex m ns f a k t0 s hget1
      (by rw [set_eq_localPut]; exact hput1)
    have hget2 : CacheManager.get md5hex cm₁ t1 ns
        [("args", PyVal.str a), ("kwargs", PyVal.str k)] =
        Except.ok (PyVal.none, cm₁) := by
      rw [get_eq_localGet md5hex cm₁ t1 ns _
        (remoteGet_none_client (by rw [hcli₁, hr]) _)]
      have hv₁' : dictGet cm₁.in_memory_cache (generate_key_str md5hex ns
          [("args", PyVal.str a), ("kwargs", PyVal.str k)]) =
          Option.some PyVal.none := by
        rw [← hres]
        exact hv₁
      exact localGet_hit hv₁' hts₁ (by rw [hcfg₁]; exact hfresh)
    obtain ⟨cm₂, hput2, _⟩ :=
      localPut_spec cm₁ (generate_key_str md5hex ns
        [("args", PyVal.str a), ("kwargs", PyVal.str k)]) (f ((f s).2)).1
        t1 hwf₁ (Or.inl (by rw [hcfg₁]; exact hmax))
    have hw2 := sync_wrapper_miss md5hex cm₁ ns f a k t1 ((f s).2) hget2
      (by rw [set_eq_localPut]; exact hput2)
    refine ⟨cm₁, cm₂, ?_, hw2⟩
    rw [hw1, hres]

theorem claim_C10_none_indistinguishable_witness :
    ((fun n : Nat => (PyVal.none, n + 1)) 0).1 = PyVal.none ∧
    ((∃ m₁, CacheManager.set (fun s => s)
        (mkManager ⟨100, 2, true, "u"⟩) 0 "ns" PyVal.none
        [("id", PyVal.int 1)] = Except.ok m₁ ∧
      CacheManager.get (fun s => s) m₁ 0 "ns" [("id", PyVal.int 1)] =
        Except.ok (PyVal.none, m₁)) ∧
    CacheManager.get (fun s => s) (mkManager ⟨100, 2, true, "u"⟩) 0 "ns"
      [("id", PyVal.int 1)] =
      Except.ok (PyVal.none, mkManager ⟨100, 2, true, "u"⟩) ∧
    (∃ cm₁ cm₂, sync_wrapper (fun s => s) (mkManager ⟨100, 2, true, "u"⟩)
        "ns" (fun n : Nat => (PyVal.none, n + 1)) "(1,)" "\x7b\x7d" 0 0 =
        Except.ok (PyVal.none, cm₁,
          ((fun n : Nat => (PyVal.none, n + 1)) 0).2) ∧
      sync_wrapper (fun s => s) cm₁ "ns"
        (fun n : Nat => (PyVal.none, n + 1)) "(1,)" "\x7b\x7d" 0
        (((fun n : Nat => (PyVal.none, n + 1)) 0).2) =
        Except.ok (((fun n : Nat => (PyVal.none, n + 1))
            (((fun n : Nat => (PyVal.none, n + 1)) 0).2)).1, cm₂,
          ((fun n : Nat => (PyVal.none, n + 1))
            (((fun n : Nat => (PyVal.none, n + 1)) 0).2)).2))) :=
  ⟨rfl,
    claim_C10_none_indistinguishable (fun s => s)
      (mkManager ⟨100, 2, true, "u"⟩) "ns" [("id", PyVal.int 1)]
      (fun n : Nat => (PyVal.none, n + 1)) 0 "(1,)" "\x7b\x7d" 0 0
      rfl rfl rfl (by decide) (by decide) rfl⟩

/-- C8 (amended): wrapping a stateful computation and invoking the wrapped
form twice with identical arguments executes the side effect exactly once —
the second call returns the cached value without invoking the computation —
provided the computation's result is not `None` (and the second call falls
inside the TTL window).  A `None`-returning computation is recomputed on
every call, because the wrapper's hit test is `is not None`. -/
theorem claim_C8_memoization_amended {σ : Type} (md5hex : String → String)
    (cm : CacheManager) (ns a k : String) (f : σ → PyVal × σ) (s : σ)
    (t0 t1 : Int) (hr : cm.redis_client = Option.none)
    (hC : cm.in_memory_cache = []) (hT : cm.cache_timestamps = [])
    (hmax : 0 < cm.config.max_size)
    (hfresh : t1 - t0 < cm.config.ttl_seconds)
    (hres : (f s).1 ≠ PyVal.none) :
    ∃ cm₁, sync_wrapper md5hex cm ns f a k t0 s =
        Except.ok ((f s).1, cm₁, (f s).2) ∧
      sync_wrapper md5hex cm₁ ns f a k t1 ((f s).2) =
        Except.ok ((f s).1, cm₁, (f s).2) := by
  have hwf : Wf cm := ⟨by rw [hC, hT]; rfl, by rw [hC]; exact List.nodup_nil⟩
  have hget1 : CacheManager.get md5hex cm t0 ns
      [("args", PyVal.str a), ("kwargs", PyVal.str k)] =
      Except.ok (PyVal.none, cm) := by
    rw [get_eq_localGet md5hex cm t0 ns _ (remoteGet_none_client hr _)]
    exact localGet_miss (by rw [hC]; rfl)
  obtain ⟨cm₁, hput1, hwf₁, hv₁, hts₁, hcfg₁, hcli₁⟩ :=
    localPut_spec cm (generate_key_str md5hex ns
      [("args", PyVal.str a), ("kwargs", PyVal.str k)]) (f s).1 t0 hwf
      (Or.inl hmax)
  have hw1 := sync_wrapper_miss md5hex cm ns f a k t0 s hget1
    (by rw [set_eq_localPut]; exact hput1)
  have hget2 : CacheManager.get md5hex cm₁ t1 ns
      [("args", PyVal.str a), ("kwargs", PyVal.str k)] =
      Except.ok ((f s).1, cm₁) := by
    rw [get_eq_localGet md5hex cm₁ t1 ns _
      (remoteGet_none_client (by rw [hcli₁, hr]) _)]
    exact localGet_hit hv₁ hts₁ (by rw [hcfg₁]; exact hfresh)
  have hw2 := sync_wrapper_hit md5hex cm₁ ns f a k t1 ((f s).2) hget2 hres
  exact ⟨cm₁, hw1, hw2⟩

theorem claim_C8_memoization_witness :
    ((fun n : Nat => (PyVal.int 7, n + 1)) 0).1 ≠ PyVal.none ∧
    ∃ cm₁, sync_wrapper (fun s => s) (mkManager ⟨100, 2, true, "u"⟩) "ns"
        (fun n : Nat => (PyVal.int 7, n + 1)) "(1,)" "\x7b\x7d" 0 0 =
        Except.ok (((fun n : Nat => (PyVal.int 7, n + 1)) 0).1, cm₁,
          ((fun n : Nat => (PyVal.int 7, n + 1)) 0).2) ∧
      sync_wrapper (fun s => s) cm₁ "ns"
        (fun n : Nat => (PyVal.int 7, n + 1)) "(1,)" "\x7b\x7d" 0
        (((fun n : Nat => (PyVal.int 7, n + 1)) 0).2) =
        Except.ok (((fun n : Nat => (PyVal.int 7, n + 1)) 0).1, cm₁,
          ((fun n : Nat => (PyVal.int 7, n + 1)) 0).2) :=
  ⟨by decide,
    claim_C8_memoization_amended (fun s => s)
      (mkManager ⟨100, 2, true, "u"⟩) "ns" "(1,)" "\x7b\x7d"
      (fun n : Nat => (PyVal.int 7, n + 1)) 0 0 0
      rfl rfl rfl (by decide) (by decide) (by decide)⟩

/-- C8 (counterexample to the claim as stated): a computation with an
observable side effect (a counter) whose result is `None` is executed on
*both* invocations — after two wrapped calls the counter holds `2`, and the
second call's effect state advances from `1` to `2`, refuting "executes the
side effect exactly once" for arbitrary computations. -/
theorem claim_C8_counterexample :
    sync_wrapper (fun s => s) (mkManager ⟨100, 10, false, "u"⟩) "ns"
      (fun n : Nat => (PyVal.none, n + 1)) "(1,)" "\x7b\x7d" 0 0 =
      Except.ok (PyVal.none,
        ⟨⟨100, 10, false, "u"⟩,
          [(generate_key_str (fun s => s) "ns"
              [("args", PyVal.str "(1,)"), ("kwargs", PyVal.str "\x7b\x7d")],
            PyVal.none)],
          [(generate_key_str (fun s => s) "ns"
              [("args", PyVal.str "(1,)"), ("kwargs", PyVal.str "\x7b\x7d")],
            0)], Option.none⟩, 1) ∧
    sync_wrapper (fun s => s)
      ⟨⟨100, 10, false, "u"⟩,
        [(generate_key_str (fun s => s) "ns"
            [("args", PyVal.str "(1,)"), ("kwargs", PyVal.str "\x7b\x7d")],
          PyVal.none)],
        [(generate_key_str (fun s => s) "ns"
            [("args", PyVal.str "(1,)"), ("kwargs", PyVal.str "\x7b\x7d")],
          0)], Option.none⟩ "ns"
      (fun n : Nat => (PyVal.none, n + 1)) "(1,)" "\x7b\x7d" 0 1 =
      Except.ok (PyVal.none,
        ⟨⟨100, 10, false, "u"⟩,
          [(generate_key_str (fun s => s) "ns"
              [("args", PyVal.str "(1,)"), ("kwargs", PyVal.str "\x7b\x7d")],
            PyVal.none)],
          [(generate_key_str (fun s => s) "ns"
              [("args", PyVal.str "(1,)"), ("kwargs", PyVal.str "\x7b\x7d")],
            0)], Option.none⟩, 2) :=
  ⟨rfl, rfl⟩

/-- C6 (counterexample to the claim as stated): an argument mapping holding
a non-serializable value (a live object reference, rendered by `str()` as
`<obj 0x1>`) does *not* fail — `_generate_key` returns a key, because
`json.dumps(..., default=str)` stringifies the object instead of rejecting
it; no `KeyEncodingError` exists anywhere in the source. -/
theorem claim_C6_counterexample :
    generate_key (fun s => s) "ns" [("ref", PyVal.obj "<obj 0x1>")] =
      Except.ok "cache:ns:ns:\x7b\"ref\": \"<obj 0x1>\"\x7d" := rfl

/-- C6 (amended): the key encoder never raises — every argument mapping,
serializable or not, yields a key; a non-JSON object is serialized through
its `str()` rendering (the `default=str` fallback), exactly as a string
value would be. -/
theorem claim_C6_no_rejection_amended (md5hex : String → String)
    (ns : String) (kwargs : List (String × PyVal)) :
    generate_key md5hex ns kwargs =
      Except.ok (generate_key_str md5hex ns kwargs) ∧
    ∀ s, json_dumps_val (PyVal.obj s) = json_dumps_val (PyVal.str s) :=
  ⟨rfl, fun _ => rfl⟩

/-- C7 (counterexample to the claim as stated): constructing the manager
with `ttl_seconds = 0` and `max_size = 0` — both violating the spec's
invariant — succeeds; neither `CacheConfig.__init__` nor
`CacheManager.__init__` validates anything, and no `ConfigurationError`
exists anywhere in the source. -/
theorem claim_C7_counterexample :
    CacheManager.init (Option.some ⟨0, 0, false, "u"⟩) false
      (fun _ => Option.none) =
      Except.ok ⟨⟨0, 0, false, "u"⟩, [], [], Option.none⟩ := rfl

/-- C7 (amended): construction never fails — for every `ttl_seconds` and
`max_size` (positive or not) the config stores the given values unchanged
and the manager is built with empty dicts and the probed client; no
validation is performed. -/
theorem claim_C7_no_validation_amended (ttl_seconds max_size : Int)
    (use_redis : Bool) (url : String) (hasRedis : Bool)
    (conn : String → Option RemoteClient) :
    CacheConfig.init ttl_seconds max_size use_redis url =
      Except.ok ⟨ttl_seconds, max_size, use_redis, url⟩ ∧
    CacheManager.init (Option.some ⟨ttl_seconds, max_size, use_redis, url⟩)
        hasRedis conn =
      Except.ok ⟨⟨ttl_seconds, max_size, use_redis, url⟩, [], [],
        if use_redis && hasRedis then conn url else Option.none⟩ :=
  ⟨rfl, rfl⟩
